import Mathlib

/-!
Verification of the SSE streaming chunk assembler of `streamAIResponse`
(src/frontend/markdown.js and src/frontend/script.js).

The JavaScript loop reads byte chunks from `response.body.getReader()`,
decodes them with one stateful `TextDecoder` (`decode(value, {stream: true})`),
accumulates decoded text in `buffer`, splits `buffer` on newline keeping the
final segment (`buffer = lines.pop() || ''`), and processes every complete
line: `data: `-framed lines are JSON-parsed into `content` / `chat_id` /
`error` fields (truthiness-tested, in that order), with a literal-text
fallback when `JSON.parse` throws a `SyntaxError`; bare non-blank lines are
literal deltas.  Each delta appends to `fullText` and invokes the sink
(`updateBotMessage`) with the whole accumulated text.  A server `error`
field throws; the surrounding `catch` sees only the thrown message.

This file embeds that loop over `List Char` (decoded text) and `List Nat`
(raw bytes) and proves the specified properties about it.
-/

set_option maxHeartbeats 1000000

namespace Matresha

/-! ### JSON values

`JSON.parse` is a platform primitive; it is modelled here for the payload
shapes this protocol uses: objects, arrays, strings (with the single-letter
escapes), integer numbers, `true`/`false`/`null`.  Fractional/exponent
number syntax and `\u` escapes are outside the modelled subset. -/

inductive JsonValue where
  | null : JsonValue
  | bool (b : Bool) : JsonValue
  | num (n : Int) : JsonValue
  | str (s : List Char) : JsonValue
  | arr (xs : List JsonValue) : JsonValue
  | obj (fields : List (List Char × JsonValue)) : JsonValue

/-- JavaScript truthiness of a JSON value (`if (json.content)` etc.):
`""`, `0`, `false`, `null` are falsy; objects and arrays are truthy. -/
def truthy : JsonValue → Bool
  | .null => false
  | .bool b => b
  | .num n => n != 0
  | .str s => !s.isEmpty
  | .arr _ => true
  | .obj _ => true

/-- JavaScript string coercion used by `fullText += json.content` and
`new Error(json.error)`.  Exact for the string/number/bool/null payloads
this protocol carries; the array and object cases are placeholders (JS
joins array elements with commas and renders objects as
`[object Object]`) — no protocol payload or claim coerces a composite. -/
def jsToString : JsonValue → List Char
  | .null => "null".toList
  | .bool true => "true".toList
  | .bool false => "false".toList
  | .num n => (toString n).toList
  | .str s => s
  | .arr _ => "[array]".toList
  | .obj _ => "[object Object]".toList

/-- JavaScript property access `json.k`: `undefined` (`none`) unless `json`
is an object with the key; with duplicate keys the last occurrence wins. -/
def jsField (v : JsonValue) (k : List Char) : Option JsonValue :=
  match v with
  | .obj fields => fields.reverse.lookup k
  | _ => none

/-- Truthiness of `json.k`, with `undefined` falsy. -/
def truthyF (v : JsonValue) (k : List Char) : Bool :=
  match jsField v k with
  | some x => truthy x
  | none => false

/-- String coercion of a possibly-`undefined` value (JS renders `undefined`
when a missing field is coerced). -/
def jsToStrOpt : Option JsonValue → List Char
  | some v => jsToString v
  | none => "undefined".toList

/-! ### JSON parser (model of `JSON.parse`) -/

/-- JSON insignificant whitespace. -/
def skipWs : List Char → List Char
  | [] => []
  | c :: rest =>
    if c = ' ' || c = '\t' || c = '\n' || c = '\r' then skipWs rest
    else c :: rest

/-- Parse the body of a JSON string after the opening quote; returns the
decoded characters and the input after the closing quote. -/
def parseStr : List Char → Option (List Char × List Char)
  | [] => none
  | c :: rest =>
    if c = '"' then some ([], rest)
    else if c = '\\' then
      match rest with
      | [] => none
      | e :: rest2 =>
        let esc : Option Char :=
          if e = '"' then some '"'
          else if e = '\\' then some '\\'
          else if e = '/' then some '/'
          else if e = 'b' then some (Char.ofNat 8)
          else if e = 'f' then some (Char.ofNat 12)
          else if e = 'n' then some '\n'
          else if e = 'r' then some '\r'
          else if e = 't' then some '\t'
          else none
        match esc with
        | some ch => (parseStr rest2).map (fun p => (ch :: p.1, p.2))
        | none => none
    else if c.toNat < 0x20 then none
    else (parseStr rest).map (fun p => (c :: p.1, p.2))

/-- Longest digit prefix. -/
def digitsPrefix : List Char → List Char × List Char
  | [] => ([], [])
  | c :: rest =>
    if c.isDigit then
      let p := digitsPrefix rest
      (c :: p.1, p.2)
    else ([], c :: rest)

def digitsToNat (l : List Char) : Nat :=
  l.foldl (fun acc c => acc * 10 + (c.toNat - 48)) 0

/-- Integer JSON numerals. -/
def parseNum (l : List Char) : Option (Int × List Char) :=
  match l with
  | '-' :: rest =>
    let p := digitsPrefix rest
    if p.1.isEmpty then none else some (-(digitsToNat p.1 : Int), p.2)
  | _ =>
    let p := digitsPrefix l
    if p.1.isEmpty then none else some ((digitsToNat p.1 : Int), p.2)

/-- Literal keyword prefix test. -/
def keyword (kw : List Char) (l : List Char) : Option (List Char) :=
  if kw.isPrefixOf l then some (l.drop kw.length) else none

mutual

/-- Parse one JSON value (fuel-indexed; `jsonParse` supplies enough fuel). -/
def parseVal : Nat → List Char → Option (JsonValue × List Char)
  | 0, _ => none
  | Nat.succ fuel, l =>
    match l with
    | [] => none
    | c :: rest =>
      if c = '"' then (parseStr rest).map (fun p => (JsonValue.str p.1, p.2))
      else if c = '\x7b' then
        match skipWs rest with
        | '\x7d' :: r => some (JsonValue.obj [], r)
        | r => (parseMembers fuel r).map (fun p => (JsonValue.obj p.1, p.2))
      else if c = '[' then
        match skipWs rest with
        | ']' :: r => some (JsonValue.arr [], r)
        | r => (parseElems fuel r).map (fun p => (JsonValue.arr p.1, p.2))
      else if c = 't' then
        (keyword "rue".toList rest).map (fun r => (JsonValue.bool true, r))
      else if c = 'f' then
        (keyword "alse".toList rest).map (fun r => (JsonValue.bool false, r))
      else if c = 'n' then
        (keyword "ull".toList rest).map (fun r => (JsonValue.null, r))
      else if c = '-' || c.isDigit then
        (parseNum l).map (fun p => (JsonValue.num p.1, p.2))
      else none

/-- Parse `"key": value (, "key": value)* \x7d` object members. -/
def parseMembers : Nat → List Char →
    Option (List (List Char × JsonValue) × List Char)
  | 0, _ => none
  | Nat.succ fuel, l =>
    match l with
    | '"' :: rest =>
      match parseStr rest with
      | some (key, r1) =>
        match skipWs r1 with
        | ':' :: r2 =>
          match parseVal fuel (skipWs r2) with
          | some (v, r3) =>
            match skipWs r3 with
            | ',' :: r4 =>
              (parseMembers fuel (skipWs r4)).map
                (fun p => ((key, v) :: p.1, p.2))
            | '\x7d' :: r4 => some ([(key, v)], r4)
            | _ => none
          | none => none
        | _ => none
      | none => none
    | _ => none

/-- Parse `value (, value)* ]` array elements. -/
def parseElems : Nat → List Char → Option (List JsonValue × List Char)
  | 0, _ => none
  | Nat.succ fuel, l =>
    match parseVal fuel l with
    | some (v, r1) =>
      match skipWs r1 with
      | ',' :: r2 => (parseElems fuel (skipWs r2)).map (fun p => (v :: p.1, p.2))
      | ']' :: r2 => some ([v], r2)
      | _ => none
    | none => none

end

/-- Model of `JSON.parse`: parse a complete value, allowing surrounding
whitespace, rejecting trailing garbage. -/
def jsonParse (l : List Char) : Option JsonValue :=
  match parseVal (l.length + 1) (skipWs l) with
  | some (v, rest) => if skipWs rest = [] then some v else none
  | none => none

/-! ### JavaScript string helpers -/

/-- The JS `String.prototype.trim` whitespace class (WhiteSpace and
LineTerminator code points). -/
def isJsWs (c : Char) : Bool :=
  c = ' ' || c = '\t' || c = '\n' || c = '\r' ||
  c.toNat = 0x0B || c.toNat = 0x0C || c.toNat = 0xA0 || c.toNat = 0x1680 ||
  (0x2000 ≤ c.toNat && c.toNat ≤ 0x200A) ||
  c.toNat = 0x2028 || c.toNat = 0x2029 || c.toNat = 0x202F ||
  c.toNat = 0x205F || c.toNat = 0x3000 || c.toNat = 0xFEFF

/-- `s.trim()`. -/
def jsTrim (l : List Char) : List Char :=
  ((l.dropWhile isJsWs).reverse.dropWhile isJsWs).reverse

/-- `s.split('\n')` — always returns at least one segment. -/
def jsSplit : List Char → List (List Char)
  | [] => [[]]
  | c :: rest =>
    if c = '\n' then [] :: jsSplit rest
    else
      match jsSplit rest with
      | [] => [[c]]
      | s :: ss => (c :: s) :: ss

/-- `hay.includes(needle)`. -/
def containsSub (hay needle : List Char) : Bool :=
  match hay with
  | [] => needle.isEmpty
  | _ :: rest => needle.isPrefixOf hay || containsSub rest needle

/-! ### The stream machine -/

/-- Per-stream mutable state of `streamAIResponse`: the accumulated
response text `fullText`, the arguments of every `updateBotMessage`
invocation in order (the sink calls), and the recorded `currentChatId`. -/
structure Machine where
  fullText : List Char
  sinkCalls : List (List Char)
  chatId : Option JsonValue

def Machine.init : Machine := ⟨[], [], none⟩

/-- A thrown JS error as seen by the outer `catch`: the message, paired
with the machine state at the moment of the throw (sink calls already made
are not retracted). -/
abbrev Thrown := List Char × Machine

/-- `fullText += d; updateBotMessage(botMessageContainer, fullText)`. -/
def emitDelta (m : Machine) (d : List Char) : Machine :=
  { fullText := m.fullText ++ d
    sinkCalls := m.sinkCalls ++ [m.fullText ++ d]
    chatId := m.chatId }

def dataPrefix : List Char := "data: ".toList
def doneSentinel : List Char := "[DONE]".toList
def keyContent : List Char := "content".toList
def keyChatId : List Char := "chat_id".toList
def keyError : List Char := "error".toList

/-- One extracted line of the markdown.js `streamAIResponse` loop:
`data: `-framed lines are JSON-parsed; a truthy `content` appends and
renders, else a truthy `chat_id` is recorded, else a truthy `error` throws;
a `SyntaxError` falls back to literal text when the payload is non-blank
and not the sentinel; bare non-blank lines are literal deltas. -/
def processLine (m : Machine) (line : List Char) : Except Thrown Machine :=
  if dataPrefix.isPrefixOf line then
    let data := line.drop 6
    if data = doneSentinel then .ok m
    else
      match jsonParse data with
      | some json =>
        if truthyF json keyContent then
          .ok (emitDelta m (jsToStrOpt (jsField json keyContent)))
        else if truthyF json keyChatId then
          .ok { m with chatId := jsField json keyChatId }
        else if truthyF json keyError then
          .error (jsToStrOpt (jsField json keyError), m)
        else .ok m
      | none =>
        if jsTrim data ≠ [] ∧ data ≠ doneSentinel then .ok (emitDelta m data)
        else .ok m
  else
    if jsTrim line ≠ [] then .ok (emitDelta m line)
    else .ok m

/-- The script.js `streamAIResponse` / `sendMessageWithFiles` variant of the
line processor: identical except that it has no `chat_id` branch. -/
def processLineScript (m : Machine) (line : List Char) : Except Thrown Machine :=
  if dataPrefix.isPrefixOf line then
    let data := line.drop 6
    if data = doneSentinel then .ok m
    else
      match jsonParse data with
      | some json =>
        if truthyF json keyContent then
          .ok (emitDelta m (jsToStrOpt (jsField json keyContent)))
        else if truthyF json keyError then
          .error (jsToStrOpt (jsField json keyError), m)
        else .ok m
      | none =>
        if jsTrim data ≠ [] ∧ data ≠ doneSentinel then .ok (emitDelta m data)
        else .ok m
  else
    if jsTrim line ≠ [] then .ok (emitDelta m line)
    else .ok m

/-- The `for (const line of lines)` body with throw propagation. -/
def stepE (st : Except Thrown Machine) (line : List Char) : Except Thrown Machine :=
  match st with
  | .error e => .error e
  | .ok m => processLine m line

/-- One loop iteration on a decoded text chunk:
`buffer += chunk; lines = buffer.split('\n'); buffer = lines.pop() || '';`
then the per-line loop over the complete lines. -/
def feedChunk (s : List Char × Except Thrown Machine) (chunk : List Char) :
    List Char × Except Thrown Machine :=
  let parts := jsSplit (s.1 ++ chunk)
  (parts.getLastD [], parts.dropLast.foldl stepE s.2)

/-- How one consumption of the source ends: the reader reports `done`, or
the transport fails (the `await reader.read()` rejects with a message). -/
inductive SourceEnd where
  | done : SourceEnd
  | transportFail (msg : List Char) : SourceEnd

inductive FailKind where
  | serverError : FailKind
  | transport : FailKind

/-- Terminal state of one stream consumption. -/
inductive Outcome where
  | completed (m : Machine) : Outcome
  | failed (kind : FailKind) (msg : List Char) (m : Machine) : Outcome

/-- The `done` branch: `if (buffer.trim())` flush the whole remaining
buffer through the same per-line loop (no `pop` here). -/
def flushBuffer (m : Machine) (buf : List Char) : Except Thrown Machine :=
  if jsTrim buf ≠ [] then (jsSplit buf).foldl stepE (.ok m)
  else .ok m

/-- Endgame of the read loop on the final (buffer, state) pair: a thrown
server `error` is a failure (the `done` flush never runs after a throw); a
transport rejection is a failure without the flush; on `done` the remaining
buffer is drained through the same per-line algorithm. -/
def finishStream (s : List Char × Except Thrown Machine)
    (srcEnd : SourceEnd) : Outcome :=
  match s.2 with
  | .error (msg, m) => .failed .serverError msg m
  | .ok m =>
    match srcEnd with
    | .transportFail t => .failed .transport t m
    | .done =>
      match flushBuffer m s.1 with
      | .ok m2 => .completed m2
      | .error (msg, m2) => .failed .serverError msg m2

/-- The whole `streamAIResponse` read loop on decoded text chunks: feed
every chunk, then either flush on `done` or fail on a transport error; a
thrown server `error` aborts with the remaining lines unprocessed. -/
def streamAIResponse (chunks : List (List Char)) (srcEnd : SourceEnd) : Outcome :=
  finishStream (chunks.foldl feedChunk ([], .ok Machine.init)) srcEnd

/-- A complete stream (the reader reports `done` after the chunks). -/
def runText (chunks : List (List Char)) : Outcome :=
  streamAIResponse chunks .done

/-- The machine state carried by an outcome. -/
def machineOf : Outcome → Machine
  | .completed m => m
  | .failed _ _ m => m

/-- The failure kind of an outcome, if failed. -/
def kindOf : Outcome → Option FailKind
  | .completed _ => none
  | .failed k _ _ => some k

end Matresha

namespace Matresha

/-! ### Split/buffer lemmas: chunking does not change the processed lines -/

theorem jsSplit_ne_nil (l : List Char) : jsSplit l ≠ [] := by
  induction l with
  | nil => simp [jsSplit]
  | cons c rest ih =>
    unfold jsSplit
    by_cases h : c = '\n'
    · simp [h]
    · rw [if_neg h]
      cases hs : jsSplit rest with
      | nil => simp
      | cons s ss => simp

theorem jsSplit_no_newline {l : List Char} (h : '\n' ∉ l) : jsSplit l = [l] := by
  induction l with
  | nil => rfl
  | cons c rest ih =>
    have hc : c ≠ '\n' := fun e => h (e ▸ List.mem_cons_self c rest)
    have hr : '\n' ∉ rest := fun hm => h (List.mem_cons_of_mem _ hm)
    unfold jsSplit
    rw [if_neg hc, ih hr]

theorem jsSplit_append_newline {x : List Char} (y : List Char) (h : '\n' ∉ x) :
    jsSplit (x ++ '\n' :: y) = x :: jsSplit y := by
  induction x with
  | nil => simp [jsSplit]
  | cons c rest ih =>
    have hc : c ≠ '\n' := fun e => h (e ▸ List.mem_cons_self c rest)
    have hr : '\n' ∉ rest := fun hm => h (List.mem_cons_of_mem _ hm)
    rw [List.cons_append]
    conv_lhs => unfold jsSplit
    rw [if_neg hc, ih hr]

theorem getLastD_cons_of_ne_nil {α : Type} (a : α) (b : α) {l : List α}
    (h : l ≠ []) : (b :: l).getLastD a = l.getLastD a := by
  cases l with
  | nil => exact absurd rfl h
  | cons x xs => simp [List.getLastD_cons]

theorem dropLast_cons_of_ne_nil {α : Type} (b : α) {l : List α}
    (h : l ≠ []) : (b :: l).dropLast = b :: l.dropLast := by
  cases l with
  | nil => exact absurd rfl h
  | cons x xs => rfl

/-- Character-at-a-time reformulation of the buffer loop, used to prove
that chunk boundaries are invisible. -/
def feedChar (s : List Char × Except Thrown Machine) (c : Char) :
    List Char × Except Thrown Machine :=
  if c = '\n' then ([], stepE s.2 s.1) else (s.1 ++ [c], s.2)

theorem feedChunk_eq_foldl (chunk : List Char) :
    ∀ (buf : List Char) (st : Except Thrown Machine), '\n' ∉ buf →
      feedChunk (buf, st) chunk = chunk.foldl feedChar (buf, st) := by
  induction chunk with
  | nil =>
    intro buf st h
    simp [feedChunk, jsSplit_no_newline h]
  | cons c cs ih =>
    intro buf st h
    rw [List.foldl_cons]
    by_cases hc : c = '\n'
    · subst hc
      have hfc : feedChar (buf, st) '\n' = ([], stepE st buf) := by
        simp [feedChar]
      rw [hfc, ← ih [] (stepE st buf) (by simp)]
      show feedChunk (buf, st) ('\n' :: cs) = feedChunk ([], stepE st buf) cs
      simp only [feedChunk, List.nil_append]
      rw [jsSplit_append_newline cs h]
      have hne := jsSplit_ne_nil cs
      rw [getLastD_cons_of_ne_nil _ _ hne, dropLast_cons_of_ne_nil _ hne,
        List.foldl_cons]
    · have hfc : feedChar (buf, st) c = (buf ++ [c], st) := by
        simp [feedChar, hc]
      rw [hfc, ← ih (buf ++ [c]) st
        (by simp [List.mem_append]; exact ⟨h, fun e => hc e.symm⟩)]
      show feedChunk (buf, st) (c :: cs) = feedChunk (buf ++ [c], st) cs
      simp only [feedChunk]
      rw [List.append_cons buf c cs]

theorem foldl_feedChar_no_newline (chunk : List Char) :
    ∀ s : List Char × Except Thrown Machine, '\n' ∉ s.1 →
      '\n' ∉ (chunk.foldl feedChar s).1 := by
  induction chunk with
  | nil => intro s h; exact h
  | cons c cs ih =>
    intro s h
    rw [List.foldl_cons]
    apply ih
    unfold feedChar
    by_cases hc : c = '\n'
    · simp [hc]
    · simp [hc, List.mem_append]
      exact ⟨h, fun e => hc e.symm⟩

theorem foldl_feedChunk_eq_flatten (chunks : List (List Char)) :
    ∀ s : List Char × Except Thrown Machine, '\n' ∉ s.1 →
      chunks.foldl feedChunk s = (chunks.flatten).foldl feedChar s := by
  induction chunks with
  | nil => intro s _; rfl
  | cons c cs ih =>
    intro s h
    rw [List.foldl_cons, List.flatten_cons, List.foldl_append]
    cases s with
    | mk buf st =>
      rw [feedChunk_eq_foldl c buf st h]
      exact ih _ (foldl_feedChar_no_newline c ⟨buf, st⟩ h)

/-- Claim C1: chunk-split invariance.  Splitting the decoded text of a
stream into chunks at arbitrary character offsets (mid-prefix, mid-line)
and feeding them through the read loop in order produces exactly the same
outcome — in particular the same final `fullText` — as feeding the entire
text as one chunk.  (Proved for every input text, well-formed or not.) -/
theorem chunk_split_invariance (chunks : List (List Char)) :
    runText chunks = runText [chunks.flatten] := by
  have h1 := foldl_feedChunk_eq_flatten chunks ([], Except.ok Machine.init)
    (by simp)
  have h2 := foldl_feedChunk_eq_flatten [chunks.flatten]
    ([], Except.ok Machine.init) (by simp)
  simp only [List.flatten_cons, List.flatten_nil, List.append_nil] at h2
  unfold runText streamAIResponse
  rw [h1, h2]

end Matresha

namespace Matresha

/-! ### Shape of one line step, and the sink-call invariant -/

/-- Every line either emits exactly one delta (appending and making one
sink call), does nothing, records `chat_id` only, or throws leaving the
machine untouched. -/
theorem processLine_shape (m : Machine) (line : List Char) :
    (∃ d, processLine m line = .ok (emitDelta m d)) ∨
    processLine m line = .ok m ∨
    (∃ v, processLine m line = .ok { m with chatId := v }) ∨
    (∃ e, processLine m line = .error (e, m)) := by
  by_cases h1 : dataPrefix.isPrefixOf line
  · by_cases h2 : line.drop 6 = doneSentinel
    · right; left; simp only [processLine, if_pos h1, if_pos h2]
    · cases hj : jsonParse (line.drop 6) with
      | some json =>
        by_cases h3 : truthyF json keyContent = true
        · refine Or.inl ⟨jsToStrOpt (jsField json keyContent), ?_⟩
          simp only [processLine, if_pos h1, if_neg h2, hj, if_pos h3]
        · by_cases h4 : truthyF json keyChatId = true
          · refine Or.inr (Or.inr (Or.inl ⟨jsField json keyChatId, ?_⟩))
            simp only [processLine, if_pos h1, if_neg h2, hj, if_neg h3,
              if_pos h4]
          · by_cases h5 : truthyF json keyError = true
            · refine Or.inr (Or.inr (Or.inr
                ⟨jsToStrOpt (jsField json keyError), ?_⟩))
              simp only [processLine, if_pos h1, if_neg h2, hj, if_neg h3,
                if_neg h4, if_pos h5]
            · right; left
              simp only [processLine, if_pos h1, if_neg h2, hj, if_neg h3,
                if_neg h4, if_neg h5]
      | none =>
        by_cases h6 : jsTrim (line.drop 6) ≠ [] ∧ line.drop 6 ≠ doneSentinel
        · refine Or.inl ⟨line.drop 6, ?_⟩
          simp only [processLine, if_pos h1, if_neg h2, hj, if_pos h6]
        · right; left
          simp only [processLine, if_pos h1, if_neg h2, hj, if_neg h6]
  · by_cases h7 : jsTrim line ≠ []
    · refine Or.inl ⟨line, ?_⟩
      simp only [processLine, if_neg h1, if_pos h7]
    · right; left; simp only [processLine, if_neg h1, if_neg h7]

/-- Invariant tying the sink calls together: they form a chain of prefixes
and the accumulated text always equals the last sink argument (initially
both empty): the sink always receives the whole accumulated text. -/
def sinkInv (m : Machine) : Prop :=
  List.Chain' (· <+: ·) m.sinkCalls ∧ m.fullText = m.sinkCalls.getLastD []

/-- `sinkInv` lifted through throw propagation. -/
def sinkInvE : Except Thrown Machine → Prop
  | .ok m => sinkInv m
  | .error (_, m) => sinkInv m

theorem sinkInv_emitDelta (m : Machine) (d : List Char) (h : sinkInv m) :
    sinkInv (emitDelta m d) := by
  obtain ⟨hc, hf⟩ := h
  constructor
  · show List.Chain' (· <+: ·) (m.sinkCalls ++ [m.fullText ++ d])
    refine List.chain'_append.2 ⟨hc, List.chain'_singleton _, ?_⟩
    intro x hx y hy
    simp only [List.head?_cons, Option.mem_def, Option.some.injEq] at hy
    subst hy
    have hx2 : m.sinkCalls.getLastD [] = x := by
      rw [List.getLastD_eq_getLast?, hx]
      rfl
    rw [← hx2, ← hf]
    exact List.prefix_append _ _
  · show m.fullText ++ d = (m.sinkCalls ++ [m.fullText ++ d]).getLastD []
    rw [List.getLastD_concat]

theorem processLine_sinkInv {m : Machine} (line : List Char)
    (h : sinkInv m) : sinkInvE (processLine m line) := by
  rcases processLine_shape m line with ⟨d, he⟩ | he | ⟨v, he⟩ | ⟨e, he⟩ <;>
    rw [he]
  · exact sinkInv_emitDelta m d h
  · exact h
  · exact ⟨h.1, h.2⟩
  · exact h

theorem stepE_sinkInv {st : Except Thrown Machine} (line : List Char)
    (h : sinkInvE st) : sinkInvE (stepE st line) := by
  cases st with
  | error e => exact h
  | ok m => exact processLine_sinkInv line h

theorem foldl_stepE_sinkInv (lines : List (List Char)) :
    ∀ st : Except Thrown Machine, sinkInvE st →
      sinkInvE (lines.foldl stepE st) := by
  induction lines with
  | nil => intro st h; exact h
  | cons l ls ih =>
    intro st h
    rw [List.foldl_cons]
    exact ih _ (stepE_sinkInv l h)

theorem feedChunk_sinkInv (s : List Char × Except Thrown Machine)
    (chunk : List Char) (h : sinkInvE s.2) :
    sinkInvE (feedChunk s chunk).2 := by
  simp only [feedChunk]
  exact foldl_stepE_sinkInv _ _ h

theorem foldl_feedChunk_sinkInv (chunks : List (List Char)) :
    ∀ s : List Char × Except Thrown Machine, sinkInvE s.2 →
      sinkInvE (chunks.foldl feedChunk s).2 := by
  induction chunks with
  | nil => intro s h; exact h
  | cons c cs ih =>
    intro s h
    rw [List.foldl_cons]
    exact ih _ (feedChunk_sinkInv s c h)

theorem flushBuffer_sinkInv (m : Machine) (buf : List Char)
    (h : sinkInv m) : sinkInvE (flushBuffer m buf) := by
  unfold flushBuffer
  by_cases hb : jsTrim buf ≠ []
  · rw [if_pos hb]
    exact foldl_stepE_sinkInv _ _ h
  · rw [if_neg hb]
    exact h

theorem finishStream_sinkInv (s : List Char × Except Thrown Machine)
    (srcEnd : SourceEnd) (h : sinkInvE s.2) :
    sinkInv (machineOf (finishStream s srcEnd)) := by
  obtain ⟨buf, st⟩ := s
  cases st with
  | error e =>
    cases e with
    | mk msg m => exact h
  | ok m =>
    cases srcEnd with
    | transportFail t => exact h
    | done =>
      have h3 := flushBuffer_sinkInv m buf h
      show sinkInv (machineOf (match flushBuffer m buf with
        | .ok m2 => Outcome.completed m2
        | .error (msg, m2) => Outcome.failed .serverError msg m2))
      cases h4 : flushBuffer m buf with
      | ok m2 => rw [h4] at h3; exact h3
      | error e =>
        rw [h4] at h3
        cases e with
        | mk msg m2 => exact h3

theorem streamAIResponse_sinkInv (chunks : List (List Char))
    (srcEnd : SourceEnd) :
    sinkInv (machineOf (streamAIResponse chunks srcEnd)) := by
  have h0 : sinkInvE (Except.ok Machine.init) := ⟨List.chain'_nil, rfl⟩
  exact finishStream_sinkInv _ srcEnd
    (foldl_feedChunk_sinkInv chunks ([], Except.ok Machine.init) h0)

/-- Claim C9: monotonic-prefix sink invariant.  For any stream consumption
(whatever the chunks and however the source ends), consecutive sink
invocations are related by list prefix — the text only ever grows by
appending — and the accumulated text always equals the last sink argument,
i.e. every sink call received the full accumulated text, never a delta. -/
theorem sink_monotonic_prefix (chunks : List (List Char)) (srcEnd : SourceEnd) :
    List.Chain' (· <+: ·) (machineOf (streamAIResponse chunks srcEnd)).sinkCalls ∧
    (machineOf (streamAIResponse chunks srcEnd)).fullText =
      (machineOf (streamAIResponse chunks srcEnd)).sinkCalls.getLastD [] :=
  streamAIResponse_sinkInv chunks srcEnd

end Matresha

namespace Matresha

/-! ### Framed-line evaluation helpers -/

theorem isPrefixOf_append_self (l r : List Char) : l.isPrefixOf (l ++ r) = true := by
  induction l with
  | nil => simp
  | cons a t ih => simp [List.isPrefixOf_cons₂, ih]

theorem drop_dataPrefix (y : List Char) : (dataPrefix ++ y).drop 6 = y := by
  have h : dataPrefix.length = 6 := rfl
  rw [← h, List.drop_left]

theorem jsonParse_ne_done {payload : List Char} {json : JsonValue}
    (hj : jsonParse payload = some json) : payload ≠ doneSentinel := by
  intro e
  rw [e] at hj
  have h : jsonParse doneSentinel = none := rfl
  rw [h] at hj
  cases hj

/-! ### Concrete stream inputs used by the explicit test-vector claims -/

def c3Input : List Char :=
  ("data: \x7b\"content\":\"partial \"\x7d\n" ++
   "data: \x7b\"error\":\"quota exceeded\"\x7d\n" ++
   "data: \x7b\"content\":\"ignored\"\x7d\n").toList

def c4Input : List Char :=
  "data: \x7b\"chat_id\": 42\x7d\ndata: \x7b\"content\":\"hi\"\x7d\n".toList

def c5Input : List Char := "data: \x7b\"content\":\"\"\x7d\n".toList

def c8Input : List Char := "data: \x7b\"error\":\"NetworkError\"\x7d\n".toList

/-- Claim C3: abort on server error.  On the three framed lines
`data: {"content":"partial "}`, `data: {"error":"quota exceeded"}`,
`data: {"content":"ignored"}` the whole operation fails as a server error
carrying "quota exceeded"; the line after the error line (although already
buffered) is never processed, the sink was invoked exactly once with
"partial ", and no sink call contains "ignored". -/
theorem abort_on_server_error :
    runText [c3Input] =
      .failed .serverError "quota exceeded".toList
        ⟨"partial ".toList, ["partial ".toList], none⟩ ∧
    (machineOf (runText [c3Input])).sinkCalls.all
      (fun s => !(containsSub s "ignored".toList)) = true :=
  ⟨rfl, rfl⟩

/-- Claim C4: metadata side-channel.  `data: {"chat_id": 42}` followed by
`data: {"content":"hi"}` completes with accumulated text "hi", records
`chat_id = 42` as stream metadata, and the sink was invoked exactly once
(for the content delta only). -/
theorem metadata_side_channel :
    runText [c4Input] =
      .completed ⟨"hi".toList, ["hi".toList], some (.num 42)⟩ :=
  rfl

/-- Claim C5 (counterexample): the payload `{"content":""}` parses as a
JSON object with a string `content` field (the empty string), yet the
stream completes with no sink invocation at all — `if (json.content)` is a
truthiness test, so the claimed "sink invoked exactly once" fails for the
empty string. -/
theorem content_empty_string_counterexample :
    jsonParse "\x7b\"content\":\"\"\x7d".toList =
      some (.obj [("content".toList, .str [])]) ∧
    runText [c5Input] = .completed ⟨[], [], none⟩ :=
  ⟨rfl, rfl⟩

/-- Helper: a framed line whose payload parses as a JSON object carrying a
non-empty string `content` field appends the content and makes exactly one
sink call with the new full text. -/
theorem processLine_content_aux (m : Machine) (payload s : List Char)
    (json : JsonValue) (hj : jsonParse payload = some json)
    (hc : jsField json keyContent = some (.str s)) (hs : s ≠ []) :
    processLine m (dataPrefix ++ payload) =
      .ok ⟨m.fullText ++ s, m.sinkCalls ++ [m.fullText ++ s], m.chatId⟩ := by
  have hpre : dataPrefix.isPrefixOf (dataPrefix ++ payload) = true :=
    isPrefixOf_append_self _ _
  have ht : truthyF json keyContent = true := by
    unfold truthyF
    rw [hc]
    cases s with
    | nil => exact absurd rfl hs
    | cons a t => rfl
  simp only [processLine, if_pos hpre, drop_dataPrefix,
    if_neg (jsonParse_ne_done hj), hj, if_pos ht, hc]
  rfl

/-- Claim C5 (amended): for every framed line whose payload parses as a
JSON object carrying a non-empty string `content` field, the content is
appended to the accumulated text and the sink is invoked exactly once with
the new full text. -/
theorem content_delta_truthy (m : Machine) (payload s : List Char)
    (json : JsonValue) (hj : jsonParse payload = some json)
    (hc : jsField json keyContent = some (.str s)) (hs : s ≠ []) :
    processLine m (dataPrefix ++ payload) =
      .ok ⟨m.fullText ++ s, m.sinkCalls ++ [m.fullText ++ s], m.chatId⟩ :=
  processLine_content_aux m payload s json hj hc hs

/-- Witness for `content_delta_truthy` at the payload
`{"content":"hi"}` from the fresh machine. -/
theorem content_delta_truthy_witness :
    processLine Machine.init (dataPrefix ++ "\x7b\"content\":\"hi\"\x7d".toList) =
      .ok ⟨"hi".toList, ["hi".toList], none⟩ :=
  content_delta_truthy Machine.init _ "hi".toList _ rfl rfl (by decide)

/-- Claim C6: plain-text fallback.  A `data: `-framed line whose payload
is not parseable JSON is not an error: when the payload is non-blank and
not the `[DONE]` sentinel it is appended literally and the sink is invoked
with the new full text. -/
theorem plain_text_fallback (m : Machine) (payload : List Char)
    (hj : jsonParse payload = none) (ht : jsTrim payload ≠ [])
    (hd : payload ≠ doneSentinel) :
    processLine m (dataPrefix ++ payload) =
      .ok ⟨m.fullText ++ payload, m.sinkCalls ++ [m.fullText ++ payload],
        m.chatId⟩ := by
  have hpre : dataPrefix.isPrefixOf (dataPrefix ++ payload) = true :=
    isPrefixOf_append_self _ _
  simp only [processLine, if_pos hpre, drop_dataPrefix, if_neg hd, hj,
    if_pos (And.intro ht hd)]
  rfl

/-- Witness for `plain_text_fallback` at the payload `hello world`. -/
theorem plain_text_fallback_witness :
    processLine Machine.init (dataPrefix ++ "hello world".toList) =
      .ok ⟨"hello world".toList, ["hello world".toList], none⟩ :=
  plain_text_fallback Machine.init _ rfl (by decide) (by decide)

/-- Claim C7: sentinel handling.  A stream of `data: [DONE]` alone
completes with empty accumulated text; a `[DONE]` payload line leaves any
machine state untouched (no text change, no sink call) and does not end
the loop — a delta line arriving after it is still processed. -/
theorem sentinel_handling :
    runText ["data: [DONE]\n".toList] = .completed ⟨[], [], none⟩ ∧
    (∀ m : Machine, processLine m "data: [DONE]".toList = .ok m) ∧
    runText ["data: [DONE]\ndata: \x7b\"content\":\"hi\"\x7d\n".toList] =
      .completed ⟨"hi".toList, ["hi".toList], none⟩ :=
  ⟨rfl, fun _ => rfl, rfl⟩

/-! ### The outer catch of script.js `streamAIResponse` (lines 873–891):
all failures arrive as one thrown `Error`; only `error.message` is read,
and the displayed classification is by substring tests on it. -/

inductive ErrorCategory where
  | network : ErrorCategory
  | config : ErrorCategory
  | generic : ErrorCategory

/-- `error.message || 'Неизвестная ошибка'`. -/
def catchMessage (msg : List Char) : List Char :=
  if msg.isEmpty then "Неизвестная ошибка".toList else msg

/-- The `isNetworkError` / `isConfigError` substring tests of the catch. -/
def classifyError (msg : List Char) : ErrorCategory :=
  if containsSub msg "Failed to fetch".toList ||
      containsSub msg "NetworkError".toList then .network
  else if containsSub msg "API key not configured".toList then .config
  else .generic

/-- What the caller (the catch block, hence the user) can see of a
terminal outcome: nothing for success, and for a failure only the thrown
message and its substring-based classification — the throw site is not
inspected (`instanceof` is never used on the caught error). -/
def displayedError : Outcome → Option (ErrorCategory × List Char)
  | .completed _ => none
  | .failed _ msg _ => some (classifyError (catchMessage msg), catchMessage msg)

/-- Claim C8 (counterexample): a server-sent `error` whose message is
"NetworkError" and a transport failure with the same message produce
different model-level kinds but exactly the same caller-visible result, so
the two failure kinds are not distinguishable by the caller — only the
message string is. -/
theorem failure_kind_counterexample :
    kindOf (runText [c8Input]) = some .serverError ∧
    kindOf (streamAIResponse [] (.transportFail "NetworkError".toList)) =
      some .transport ∧
    displayedError (runText [c8Input]) =
      displayedError (streamAIResponse [] (.transportFail "NetworkError".toList)) :=
  ⟨rfl, rfl, rfl⟩

/-- Claim C8 (amended): the terminal result is either completed or failed;
a server `error` field and a transport failure produce failures of their
respective kinds at the throw site, but both reach the caller as a thrown
message only: the displayed result is a function of the message alone
(classified by substring tests), identical for both kinds. -/
theorem failure_display_message_only :
    (∀ (k1 k2 : FailKind) (msg : List Char) (m1 m2 : Machine),
      displayedError (.failed k1 msg m1) = displayedError (.failed k2 msg m2)) ∧
    runText ["data: \x7b\"error\":\"boom\"\x7d\n".toList] =
      .failed .serverError "boom".toList Machine.init ∧
    streamAIResponse [] (.transportFail "connection lost".toList) =
      .failed .transport "connection lost".toList Machine.init :=
  ⟨fun _ _ _ _ _ => rfl, rfl, rfl⟩

/-- Claim C10: field priority on mixed payloads.  For a framed JSON-object
payload the branches are tested in the fixed order `content`, `chat_id`,
`error`, each selected only when its value is truthy: truthy `content`
appends and renders without aborting regardless of any `error` field;
`chat_id` is recorded only when `content` is falsy; `error` aborts only
when both earlier fields are falsy.  In the script.js variant (no
`chat_id` branch) truthy `content` likewise wins over `error`. -/
theorem field_priority_order (m : Machine) (payload : List Char)
    (json : JsonValue) (hj : jsonParse payload = some json) :
    (truthyF json keyContent = true →
      processLine m (dataPrefix ++ payload) =
        .ok ⟨m.fullText ++ jsToStrOpt (jsField json keyContent),
          m.sinkCalls ++ [m.fullText ++ jsToStrOpt (jsField json keyContent)],
          m.chatId⟩) ∧
    (truthyF json keyContent = false → truthyF json keyChatId = true →
      processLine m (dataPrefix ++ payload) =
        .ok { m with chatId := jsField json keyChatId }) ∧
    (truthyF json keyContent = false → truthyF json keyChatId = false →
      truthyF json keyError = true →
      processLine m (dataPrefix ++ payload) =
        .error (jsToStrOpt (jsField json keyError), m)) ∧
    (truthyF json keyContent = true →
      processLineScript m (dataPrefix ++ payload) =
        .ok ⟨m.fullText ++ jsToStrOpt (jsField json keyContent),
          m.sinkCalls ++ [m.fullText ++ jsToStrOpt (jsField json keyContent)],
          m.chatId⟩) := by
  have hpre : dataPrefix.isPrefixOf (dataPrefix ++ payload) = true :=
    isPrefixOf_append_self _ _
  refine ⟨fun h3 => ?_, fun h3 h4 => ?_, fun h3 h4 h5 => ?_, fun h3 => ?_⟩
  · simp only [processLine, if_pos hpre, drop_dataPrefix,
      if_neg (jsonParse_ne_done hj), hj, if_pos h3]
    rfl
  · have h3n : ¬ truthyF json keyContent = true := by
      rw [h3]; exact Bool.false_ne_true
    simp only [processLine, if_pos hpre, drop_dataPrefix,
      if_neg (jsonParse_ne_done hj), hj, if_neg h3n, if_pos h4]
  · have h3n : ¬ truthyF json keyContent = true := by
      rw [h3]; exact Bool.false_ne_true
    have h4n : ¬ truthyF json keyChatId = true := by
      rw [h4]; exact Bool.false_ne_true
    simp only [processLine, if_pos hpre, drop_dataPrefix,
      if_neg (jsonParse_ne_done hj), hj, if_neg h3n, if_neg h4n, if_pos h5]
  · simp only [processLineScript, if_pos hpre, drop_dataPrefix,
      if_neg (jsonParse_ne_done hj), hj, if_pos h3]
    rfl

/-- Witness for `field_priority_order`: with both `content` and `error`
present and truthy, the content is appended and the stream is not
aborted; a lone truthy `error` aborts. -/
theorem field_priority_order_witness :
    processLine Machine.init
        (dataPrefix ++ "\x7b\"content\":\"a\",\"error\":\"b\"\x7d".toList) =
      .ok ⟨"a".toList, ["a".toList], none⟩ ∧
    processLine Machine.init (dataPrefix ++ "\x7b\"error\":\"x\"\x7d".toList) =
      .error ("x".toList, Machine.init) :=
  ⟨(field_priority_order Machine.init
      "\x7b\"content\":\"a\",\"error\":\"b\"\x7d".toList
      (JsonValue.obj [("content".toList, JsonValue.str "a".toList),
        ("error".toList, JsonValue.str "b".toList)]) rfl).1 rfl,
   (field_priority_order Machine.init "\x7b\"error\":\"x\"\x7d".toList
      (JsonValue.obj [("error".toList, JsonValue.str "x".toList)]) rfl).2.2.1
     rfl rfl rfl⟩

end Matresha

namespace Matresha

/-! ### UTF-8 bytes and the stateful `TextDecoder`

`TextDecoder` with `decode(value, {stream: true})` is a platform
primitive: it decodes complete UTF-8 sequences and carries an incomplete
trailing sequence over to the next call.  The model below is exact on
well-formed input (every valid encoding, split anywhere); on invalid bytes
it emits U+FFFD and resynchronises, approximating the WHATWG rules, which
no claim exercises.  The code never calls a final `decode()`, so a pending
incomplete tail at stream end is dropped, as in the source. -/

/-- UTF-8 encoding of one scalar value, as byte values. -/
def utf8EncodeChar (c : Char) : List Nat :=
  let n := c.toNat
  if n < 0x80 then [n]
  else if n < 0x800 then [0xC0 + n / 64, 0x80 + n % 64]
  else if n < 0x10000 then
    [0xE0 + n / 4096, 0x80 + n / 64 % 64, 0x80 + n % 64]
  else [0xF0 + n / 262144, 0x80 + n / 4096 % 64, 0x80 + n / 64 % 64,
    0x80 + n % 64]

def utf8EncodeStr (l : List Char) : List Nat :=
  (l.map utf8EncodeChar).flatten

/-- Continuation byte test. -/
def isCont (b : Nat) : Bool := 0x80 ≤ b && b < 0xC0

def replChar : Char := Char.ofNat 0xFFFD

/-- Total length of the sequence announced by a lead byte. -/
def neededLen (lead : Nat) : Nat :=
  if lead < 0xE0 then 2 else if lead < 0xF0 then 3 else 4

/-- Scalar value of one complete sequence (lead byte plus continuations). -/
def decodeSeq : List Nat → Char
  | [b, b1] => Char.ofNat ((b - 0xC0) * 64 + (b1 - 0x80))
  | [b, b1, b2] => Char.ofNat ((b - 0xE0) * 4096 + (b1 - 0x80) * 64 +
      (b2 - 0x80))
  | [b, b1, b2, b3] => Char.ofNat ((b - 0xF0) * 262144 +
      (b1 - 0x80) * 4096 + (b2 - 0x80) * 64 + (b3 - 0x80))
  | _ => replChar

/-- Decoder transition on one byte with no sequence in progress. -/
def utf8StartByte (out : List Char) (b : Nat) : List Char × List Nat :=
  if b < 0x80 then (out ++ [Char.ofNat b], [])
  else if b < 0xC2 then (out ++ [replChar], [])
  else if b < 0xF8 then (out, [b])
  else (out ++ [replChar], [])

/-- Decoder transition on one byte: either extend (and possibly complete)
the pending sequence, or abort it with a replacement and restart at this
byte. -/
def utf8Step (s : List Char × List Nat) (b : Nat) : List Char × List Nat :=
  match s.2 with
  | [] => utf8StartByte s.1 b
  | lead :: conts =>
    if isCont b then
      if conts.length + 2 = neededLen lead then
        (s.1 ++ [decodeSeq (lead :: conts ++ [b])], [])
      else (s.1, lead :: conts ++ [b])
    else utf8StartByte (s.1 ++ [replChar]) b

/-- One `decode` pass: decoded characters plus the pending incomplete
tail to be carried to the next chunk. -/
def utf8Decode (l : List Nat) : List Char × List Nat :=
  l.foldl utf8Step ([], [])

/-- One loop iteration on a raw byte chunk:
`buffer += decoder.decode(value, {stream: true})` followed by the line
processing of `feedChunk`.  The decoder state is the pending byte tail. -/
def feedByteChunk (s : List Nat × List Char × Except Thrown Machine)
    (chunk : List Nat) : List Nat × List Char × Except Thrown Machine :=
  let d := utf8Decode (s.1 ++ chunk)
  let t := feedChunk (s.2.1, s.2.2) d.1
  (d.2, t.1, t.2)

/-- The whole `streamAIResponse` read loop on raw byte chunks, one fresh
`TextDecoder` per stream. -/
def streamAIResponseBytes (chunks : List (List Nat))
    (srcEnd : SourceEnd) : Outcome :=
  finishStream (chunks.foldl feedByteChunk ([], [], .ok Machine.init)).2 srcEnd

def runBytes (chunks : List (List Nat)) : Outcome :=
  streamAIResponseBytes chunks .done

end Matresha


namespace Matresha

/-! ### Decoder correctness on well-formed input -/

theorem utf8Step_ascii (out : List Char) (b : Nat) (hb : b < 0x80) :
    utf8Step (out, []) b = (out ++ [Char.ofNat b], []) := by
  simp only [utf8Step, utf8StartByte]
  rw [if_pos hb]

theorem utf8Step_start_lead (out : List Char) (b : Nat) (h1 : 0xC2 ≤ b)
    (h2 : b < 0xF8) :
    utf8Step (out, []) b = (out, [b]) := by
  simp only [utf8Step, utf8StartByte]
  rw [if_neg (by omega), if_neg (by omega), if_pos (by omega)]

theorem utf8Step_extend (out : List Char) (lead : Nat) (conts : List Nat)
    (b : Nat) (hb : isCont b = true)
    (hne : ¬ conts.length + 2 = neededLen lead) :
    utf8Step (out, lead :: conts) b = (out, lead :: conts ++ [b]) := by
  simp only [utf8Step]
  rw [if_pos hb, if_neg hne]

theorem utf8Step_complete (out : List Char) (lead : Nat) (conts : List Nat)
    (b : Nat) (hb : isCont b = true)
    (heq : conts.length + 2 = neededLen lead) :
    utf8Step (out, lead :: conts) b =
      (out ++ [decodeSeq (lead :: conts ++ [b])], []) := by
  simp only [utf8Step]
  rw [if_pos hb, if_pos heq]

theorem utf8Step_extend1 (out : List Char) (lead b : Nat)
    (hb : isCont b = true) (h : ¬ neededLen lead = 2) :
    utf8Step (out, [lead]) b = (out, [lead, b]) :=
  utf8Step_extend out lead [] b hb
    (by simp only [List.length_nil]; omega)

theorem utf8Step_extend2 (out : List Char) (lead b1 b : Nat)
    (hb : isCont b = true) (h : ¬ neededLen lead = 3) :
    utf8Step (out, [lead, b1]) b = (out, [lead, b1, b]) :=
  utf8Step_extend out lead [b1] b hb
    (by simp only [List.length_cons, List.length_nil]; omega)

theorem utf8Step_complete2 (out : List Char) (lead b : Nat)
    (hb : isCont b = true) (h : neededLen lead = 2) :
    utf8Step (out, [lead]) b = (out ++ [decodeSeq [lead, b]], []) :=
  utf8Step_complete out lead [] b hb
    (by simp only [List.length_nil]; omega)

theorem utf8Step_complete3 (out : List Char) (lead b1 b : Nat)
    (hb : isCont b = true) (h : neededLen lead = 3) :
    utf8Step (out, [lead, b1]) b = (out ++ [decodeSeq [lead, b1, b]], []) :=
  utf8Step_complete out lead [b1] b hb
    (by simp only [List.length_cons, List.length_nil]; omega)

theorem utf8Step_complete4 (out : List Char) (lead b1 b2 b : Nat)
    (hb : isCont b = true) (h : neededLen lead = 4) :
    utf8Step (out, [lead, b1, b2]) b =
      (out ++ [decodeSeq [lead, b1, b2, b]], []) :=
  utf8Step_complete out lead [b1, b2] b hb
    (by simp only [List.length_cons, List.length_nil]; omega)

theorem isCont_of_mod (x : Nat) : isCont (0x80 + x % 64) = true := by
  simp only [isCont, Bool.and_eq_true, decide_eq_true_eq]
  omega

theorem foldl_utf8Step_ascii (l : List Nat) (out : List Char)
    (h : ∀ b ∈ l, b < 0x80) :
    l.foldl utf8Step (out, []) = (out ++ l.map Char.ofNat, []) := by
  induction l generalizing out with
  | nil => simp
  | cons b t ih =>
    rw [List.foldl_cons, utf8Step_ascii out b (h b (List.mem_cons_self b t)),
      ih (out ++ [Char.ofNat b]) (fun x hx => h x (List.mem_cons_of_mem _ hx))]
    simp

theorem char_toNat_lt (c : Char) : c.toNat < 0x110000 := by
  rcases c.valid with h | ⟨_, h2⟩
  · exact Nat.lt_trans h (by norm_num)
  · exact h2

end Matresha

namespace Matresha

/-- Decoding a complete encoded scalar appends exactly that scalar. -/
theorem foldl_utf8Step_encodeChar (c : Char) (out : List Char) :
    (utf8EncodeChar c).foldl utf8Step (out, []) = (out ++ [c], []) := by
  have hlt := char_toNat_lt c
  by_cases h1 : c.toNat < 0x80
  · simp only [utf8EncodeChar, if_pos h1]
    rw [List.foldl_cons, List.foldl_nil, utf8Step_ascii out c.toNat h1,
      Char.ofNat_toNat]
  · by_cases h2 : c.toNat < 0x800
    · have hneed : neededLen (0xC0 + c.toNat / 64) = 2 := by
        simp only [neededLen]
        rw [if_pos (by omega)]
      simp only [utf8EncodeChar, if_neg h1, if_pos h2]
      rw [List.foldl_cons, List.foldl_cons, List.foldl_nil,
        utf8Step_start_lead out (0xC0 + c.toNat / 64) (by omega) (by omega),
        utf8Step_complete2 out (0xC0 + c.toNat / 64) (0x80 + c.toNat % 64)
          (isCont_of_mod c.toNat) hneed]
      have e : decodeSeq [0xC0 + c.toNat / 64, 0x80 + c.toNat % 64] = c := by
        show Char.ofNat ((0xC0 + c.toNat / 64 - 0xC0) * 64 +
          (0x80 + c.toNat % 64 - 0x80)) = c
        rw [show (0xC0 + c.toNat / 64 - 0xC0) * 64 +
          (0x80 + c.toNat % 64 - 0x80) = c.toNat by omega, Char.ofNat_toNat]
      rw [e]
    · by_cases h3 : c.toNat < 0x10000
      · have hneed : neededLen (0xE0 + c.toNat / 4096) = 3 := by
          simp only [neededLen]
          rw [if_neg (by omega), if_pos (by omega)]
        simp only [utf8EncodeChar, if_neg h1, if_neg h2, if_pos h3]
        rw [List.foldl_cons, List.foldl_cons, List.foldl_cons, List.foldl_nil,
          utf8Step_start_lead out (0xE0 + c.toNat / 4096) (by omega) (by omega),
          utf8Step_extend1 out (0xE0 + c.toNat / 4096)
            (0x80 + c.toNat / 64 % 64) (isCont_of_mod _) (by omega),
          utf8Step_complete3 out (0xE0 + c.toNat / 4096)
            (0x80 + c.toNat / 64 % 64) (0x80 + c.toNat % 64)
            (isCont_of_mod c.toNat) hneed]
        have e : decodeSeq [0xE0 + c.toNat / 4096, 0x80 + c.toNat / 64 % 64,
            0x80 + c.toNat % 64] = c := by
          show Char.ofNat ((0xE0 + c.toNat / 4096 - 0xE0) * 4096 +
            (0x80 + c.toNat / 64 % 64 - 0x80) * 64 +
            (0x80 + c.toNat % 64 - 0x80)) = c
          rw [show (0xE0 + c.toNat / 4096 - 0xE0) * 4096 +
            (0x80 + c.toNat / 64 % 64 - 0x80) * 64 +
            (0x80 + c.toNat % 64 - 0x80) = c.toNat by omega, Char.ofNat_toNat]
        rw [e]
      · have hneed : neededLen (0xF0 + c.toNat / 262144) = 4 := by
          simp only [neededLen]
          rw [if_neg (by omega), if_neg (by omega)]
        simp only [utf8EncodeChar, if_neg h1, if_neg h2, if_neg h3]
        rw [List.foldl_cons, List.foldl_cons, List.foldl_cons,
          List.foldl_cons, List.foldl_nil,
          utf8Step_start_lead out (0xF0 + c.toNat / 262144)
            (by omega) (by omega),
          utf8Step_extend1 out (0xF0 + c.toNat / 262144)
            (0x80 + c.toNat / 4096 % 64) (isCont_of_mod _) (by omega),
          utf8Step_extend2 out (0xF0 + c.toNat / 262144)
            (0x80 + c.toNat / 4096 % 64) (0x80 + c.toNat / 64 % 64)
            (isCont_of_mod _) (by omega),
          utf8Step_complete4 out (0xF0 + c.toNat / 262144)
            (0x80 + c.toNat / 4096 % 64) (0x80 + c.toNat / 64 % 64)
            (0x80 + c.toNat % 64) (isCont_of_mod c.toNat) hneed]
        have e : decodeSeq [0xF0 + c.toNat / 262144,
            0x80 + c.toNat / 4096 % 64, 0x80 + c.toNat / 64 % 64,
            0x80 + c.toNat % 64] = c := by
          show Char.ofNat ((0xF0 + c.toNat / 262144 - 0xF0) * 262144 +
            (0x80 + c.toNat / 4096 % 64 - 0x80) * 4096 +
            (0x80 + c.toNat / 64 % 64 - 0x80) * 64 +
            (0x80 + c.toNat % 64 - 0x80)) = c
          rw [show (0xF0 + c.toNat / 262144 - 0xF0) * 262144 +
            (0x80 + c.toNat / 4096 % 64 - 0x80) * 4096 +
            (0x80 + c.toNat / 64 % 64 - 0x80) * 64 +
            (0x80 + c.toNat % 64 - 0x80) = c.toNat by omega, Char.ofNat_toNat]
        rw [e]

/-- Decoding a strict prefix of a multi-byte encoding emits nothing and
retains the whole prefix as the pending tail. -/
theorem foldl_utf8Step_encodeChar_prefix (c : Char) (i : Nat)
    (out : List Char) (hc : 0x80 ≤ c.toNat) (h0 : 0 < i)
    (hi : i < (utf8EncodeChar c).length) :
    ((utf8EncodeChar c).take i).foldl utf8Step (out, []) =
      (out, (utf8EncodeChar c).take i) := by
  have hlt := char_toNat_lt c
  have h1 : ¬ c.toNat < 0x80 := by omega
  by_cases h2 : c.toNat < 0x800
  · have he : utf8EncodeChar c = [0xC0 + c.toNat / 64, 0x80 + c.toNat % 64] := by
      simp [utf8EncodeChar, if_neg h1, if_pos h2]
    have hl : (utf8EncodeChar c).length = 2 := by rw [he]; rfl
    have hi1 : i = 1 := by omega
    subst hi1
    rw [he]
    rw [show List.take 1 [0xC0 + c.toNat / 64, 0x80 + c.toNat % 64] =
      [0xC0 + c.toNat / 64] from rfl]
    rw [List.foldl_cons, List.foldl_nil,
      utf8Step_start_lead out (0xC0 + c.toNat / 64) (by omega) (by omega)]
  · by_cases h3 : c.toNat < 0x10000
    · have he : utf8EncodeChar c = [0xE0 + c.toNat / 4096,
          0x80 + c.toNat / 64 % 64, 0x80 + c.toNat % 64] := by
        simp [utf8EncodeChar, if_neg h1, if_neg h2, if_pos h3]
      have hl : (utf8EncodeChar c).length = 3 := by rw [he]; rfl
      have hneed : neededLen (0xE0 + c.toNat / 4096) = 3 := by
        simp only [neededLen]
        rw [if_neg (by omega), if_pos (by omega)]
      rcases (by omega : i = 1 ∨ i = 2) with hi1 | hi2
      · subst hi1
        rw [he]
        rw [show List.take 1 [0xE0 + c.toNat / 4096,
          0x80 + c.toNat / 64 % 64, 0x80 + c.toNat % 64] =
          [0xE0 + c.toNat / 4096] from rfl]
        rw [List.foldl_cons, List.foldl_nil,
          utf8Step_start_lead out (0xE0 + c.toNat / 4096) (by omega) (by omega)]
      · subst hi2
        rw [he]
        rw [show List.take 2 [0xE0 + c.toNat / 4096,
          0x80 + c.toNat / 64 % 64, 0x80 + c.toNat % 64] =
          [0xE0 + c.toNat / 4096, 0x80 + c.toNat / 64 % 64] from rfl]
        rw [List.foldl_cons, List.foldl_cons, List.foldl_nil,
          utf8Step_start_lead out (0xE0 + c.toNat / 4096) (by omega) (by omega),
          utf8Step_extend1 out (0xE0 + c.toNat / 4096)
            (0x80 + c.toNat / 64 % 64) (isCont_of_mod _) (by omega)]
    · have he : utf8EncodeChar c = [0xF0 + c.toNat / 262144,
          0x80 + c.toNat / 4096 % 64, 0x80 + c.toNat / 64 % 64,
          0x80 + c.toNat % 64] := by
        simp [utf8EncodeChar, if_neg h1, if_neg h2, if_neg h3]
      have hl : (utf8EncodeChar c).length = 4 := by rw [he]; rfl
      have hneed : neededLen (0xF0 + c.toNat / 262144) = 4 := by
        simp only [neededLen]
        rw [if_neg (by omega), if_neg (by omega)]
      rcases (by omega : i = 1 ∨ i = 2 ∨ i = 3) with hi1 | hi2 | hi3
      · subst hi1
        rw [he]
        rw [show List.take 1 [0xF0 + c.toNat / 262144,
          0x80 + c.toNat / 4096 % 64, 0x80 + c.toNat / 64 % 64,
          0x80 + c.toNat % 64] = [0xF0 + c.toNat / 262144] from rfl]
        rw [List.foldl_cons, List.foldl_nil,
          utf8Step_start_lead out (0xF0 + c.toNat / 262144)
            (by omega) (by omega)]
      · subst hi2
        rw [he]
        rw [show List.take 2 [0xF0 + c.toNat / 262144,
          0x80 + c.toNat / 4096 % 64, 0x80 + c.toNat / 64 % 64,
          0x80 + c.toNat % 64] = [0xF0 + c.toNat / 262144,
          0x80 + c.toNat / 4096 % 64] from rfl]
        rw [List.foldl_cons, List.foldl_cons, List.foldl_nil,
          utf8Step_start_lead out (0xF0 + c.toNat / 262144)
            (by omega) (by omega),
          utf8Step_extend1 out (0xF0 + c.toNat / 262144)
            (0x80 + c.toNat / 4096 % 64) (isCont_of_mod _) (by omega)]
      · subst hi3
        rw [he]
        rw [show List.take 3 [0xF0 + c.toNat / 262144,
          0x80 + c.toNat / 4096 % 64, 0x80 + c.toNat / 64 % 64,
          0x80 + c.toNat % 64] = [0xF0 + c.toNat / 262144,
          0x80 + c.toNat / 4096 % 64, 0x80 + c.toNat / 64 % 64] from rfl]
        rw [List.foldl_cons, List.foldl_cons, List.foldl_cons, List.foldl_nil,
          utf8Step_start_lead out (0xF0 + c.toNat / 262144)
            (by omega) (by omega),
          utf8Step_extend1 out (0xF0 + c.toNat / 262144)
            (0x80 + c.toNat / 4096 % 64) (isCont_of_mod _) (by omega),
          utf8Step_extend2 out (0xF0 + c.toNat / 262144)
            (0x80 + c.toNat / 4096 % 64) (0x80 + c.toNat / 64 % 64)
            (isCont_of_mod _) (by omega)]

end Matresha

namespace Matresha

/-! ### A framed content line with one symbolic character -/

theorem parseVal_content_single (c : Char) (hq : c ≠ '"') (hb : c ≠ '\\')
    (hctl : ¬ c.toNat < 0x20) (fuel : Nat) :
    parseVal (fuel + 3) ('\x7b' :: '"' :: 'c' :: 'o' :: 'n' :: 't' :: 'e' ::
      'n' :: 't' :: '"' :: ':' :: '"' :: c :: '"' :: '\x7d' :: []) =
      some (JsonValue.obj [("content".toList, JsonValue.str [c])], []) := by
  have hps : parseStr (c :: '"' :: '\x7d' :: []) = some ([c], ['\x7d']) := by
    unfold parseStr
    rw [if_neg hq, if_neg hb, if_neg hctl]
    rfl
  have hkey : parseStr ('c' :: 'o' :: 'n' :: 't' :: 'e' :: 'n' :: 't' ::
      '"' :: ':' :: '"' :: c :: '"' :: '\x7d' :: []) =
      some ("content".toList, ':' :: '"' :: c :: '"' :: '\x7d' :: []) := rfl
  simp [parseVal, parseMembers, skipWs, hps, hkey]

theorem jsonParse_content_single (c : Char) (hq : c ≠ '"') (hb : c ≠ '\\')
    (hctl : ¬ c.toNat < 0x20) :
    jsonParse ("\x7b\"content\":\"".toList ++ c :: '"' :: '\x7d' :: []) =
      some (JsonValue.obj [("content".toList, JsonValue.str [c])]) := by
  have h := parseVal_content_single c hq hb hctl 13
  show jsonParse ('\x7b' :: '"' :: 'c' :: 'o' :: 'n' :: 't' :: 'e' :: 'n' ::
    't' :: '"' :: ':' :: '"' :: c :: '"' :: '\x7d' :: []) = _
  unfold jsonParse
  rw [show ('\x7b' :: '"' :: 'c' :: 'o' :: 'n' :: 't' :: 'e' :: 'n' :: 't' ::
    '"' :: ':' :: '"' :: c :: '"' :: '\x7d' :: []).length = 15 from rfl]
  rw [show skipWs ('\x7b' :: '"' :: 'c' :: 'o' :: 'n' :: 't' :: 'e' :: 'n' ::
    't' :: '"' :: ':' :: '"' :: c :: '"' :: '\x7d' :: []) =
    ('\x7b' :: '"' :: 'c' :: 'o' :: 'n' :: 't' :: 'e' :: 'n' :: 't' :: '"' ::
    ':' :: '"' :: c :: '"' :: '\x7d' :: []) from rfl]
  rw [show (15 + 1 : Nat) = 13 + 3 from rfl]
  rw [h]
  rfl

/-- The framing text around the character in the C2 stream. -/
def contentOpen : List Char := "data: \x7b\"content\":\"".toList
def contentClose : List Char := "\"\x7d\n".toList

end Matresha

namespace Matresha

/-- Claim C2: UTF-8 split safety.  For every multi-byte character and every
byte boundary inside its encoding, feeding the two halves through the
stateful decoder emits exactly the original character (the incomplete tail
is carried forward, no replacement character), and feeding the whole
framed-content stream as two raw byte chunks split at that boundary yields
exactly that character as the accumulated text with one sink call. -/
theorem utf8_split_safety (c : Char) (i : Nat) (hc : 0x80 ≤ c.toNat)
    (h0 : 0 < i) (hi : i < (utf8EncodeChar c).length) :
    (utf8Decode ((utf8EncodeChar c).take i) =
        ([], (utf8EncodeChar c).take i) ∧
      utf8Decode ((utf8EncodeChar c).take i ++ (utf8EncodeChar c).drop i) =
        ([c], [])) ∧
    runBytes [utf8EncodeStr contentOpen ++ (utf8EncodeChar c).take i,
        (utf8EncodeChar c).drop i ++ utf8EncodeStr contentClose] =
      .completed ⟨[c], [[c]], none⟩ := by
  have hq : c ≠ '"' := by
    intro e
    rw [e] at hc
    exact absurd hc (by decide)
  have hbl : c ≠ '\\' := by
    intro e
    rw [e] at hc
    exact absurd hc (by decide)
  have hctl : ¬ c.toNat < 0x20 := by omega
  have hnln : c ≠ '\n' := by
    intro e
    rw [e] at hc
    exact absurd hc (by decide)
  have hdp : utf8Decode ((utf8EncodeChar c).take i) =
      ([], (utf8EncodeChar c).take i) := by
    unfold utf8Decode
    exact foldl_utf8Step_encodeChar_prefix c i [] hc h0 hi
  have hdc : utf8Decode ((utf8EncodeChar c).take i ++
      (utf8EncodeChar c).drop i) = ([c], []) := by
    rw [List.take_append_drop]
    unfold utf8Decode
    exact foldl_utf8Step_encodeChar c []
  refine ⟨⟨hdp, hdc⟩, ?_⟩
  have hd1 : utf8Decode (utf8EncodeStr contentOpen ++
      (utf8EncodeChar c).take i) =
      (contentOpen, (utf8EncodeChar c).take i) := by
    unfold utf8Decode
    rw [List.foldl_append,
      foldl_utf8Step_ascii (utf8EncodeStr contentOpen) [] (by decide)]
    rw [show ([] : List Char) ++ (utf8EncodeStr contentOpen).map Char.ofNat =
      contentOpen from rfl]
    exact foldl_utf8Step_encodeChar_prefix c i contentOpen hc h0 hi
  have hd2 : utf8Decode ((utf8EncodeChar c).take i ++
      ((utf8EncodeChar c).drop i ++ utf8EncodeStr contentClose)) =
      (c :: '"' :: '\x7d' :: '\n' :: [], []) := by
    rw [← List.append_assoc, List.take_append_drop]
    unfold utf8Decode
    rw [List.foldl_append, foldl_utf8Step_encodeChar c []]
    rw [show (([] : List Char) ++ [c]) = [c] from rfl]
    rw [foldl_utf8Step_ascii (utf8EncodeStr contentClose) [c] (by decide)]
    rfl
  have hstep1 : feedByteChunk ([], [], Except.ok Machine.init)
      (utf8EncodeStr contentOpen ++ (utf8EncodeChar c).take i) =
      ((utf8EncodeChar c).take i, contentOpen, Except.ok Machine.init) := by
    simp only [feedByteChunk, List.nil_append]
    rw [hd1]
    rfl
  have hline : processLine Machine.init (contentOpen ++ [c, '"', '\x7d']) =
      .ok ⟨[c], [[c]], none⟩ := by
    have hx : contentOpen ++ [c, '"', '\x7d'] =
        dataPrefix ++ ("\x7b\"content\":\"".toList ++
          c :: '"' :: '\x7d' :: []) := rfl
    rw [hx]
    exact processLine_content_aux Machine.init _ [c] _
      (jsonParse_content_single c hq hbl hctl) rfl (by simp)
  have hstep2 : feedByteChunk
      ((utf8EncodeChar c).take i, contentOpen, Except.ok Machine.init)
      ((utf8EncodeChar c).drop i ++ utf8EncodeStr contentClose) =
      ([], [], Except.ok (⟨[c], [[c]], none⟩ : Machine)) := by
    simp only [feedByteChunk]
    rw [hd2]
    have hnl2 : '\n' ∉ contentOpen ++ [c, '"', '\x7d'] := by
      intro hmem
      rcases List.mem_append.1 hmem with h | h
      · exact absurd h (by decide)
      · simp only [List.mem_cons, List.not_mem_nil, or_false] at h
        rcases h with h | h | h
        · exact hnln h.symm
        · exact absurd h (by decide)
        · exact absurd h (by decide)
    have hsplit : jsSplit (contentOpen ++ (c :: '"' :: '\x7d' :: '\n' :: [])) =
        (contentOpen ++ [c, '"', '\x7d']) :: [[]] := by
      rw [show contentOpen ++ (c :: '"' :: '\x7d' :: '\n' :: []) =
        (contentOpen ++ [c, '"', '\x7d']) ++ '\n' :: [] by simp]
      rw [jsSplit_append_newline [] hnl2]
      rfl
    simp only [feedChunk, hsplit]
    rw [show ((contentOpen ++ [c, '"', '\x7d']) :: [[]]).dropLast =
      [contentOpen ++ [c, '"', '\x7d']] from rfl]
    rw [List.foldl_cons, List.foldl_nil]
    rw [show stepE (Except.ok Machine.init) (contentOpen ++ [c, '"', '\x7d']) =
      processLine Machine.init (contentOpen ++ [c, '"', '\x7d']) from rfl]
    rw [hline]
    rfl
  show streamAIResponseBytes _ .done = _
  unfold streamAIResponseBytes
  rw [List.foldl_cons, hstep1, List.foldl_cons, hstep2, List.foldl_nil]
  rfl

/-- Witness for `utf8_split_safety`: the two-byte character 'я' split after
its first byte. -/
theorem utf8_split_safety_witness :
    0x80 ≤ ('я').toNat ∧ 0 < 1 ∧ 1 < (utf8EncodeChar 'я').length ∧
    runBytes [utf8EncodeStr contentOpen ++ (utf8EncodeChar 'я').take 1,
        (utf8EncodeChar 'я').drop 1 ++ utf8EncodeStr contentClose] =
      .completed ⟨['я'], [['я']], none⟩ :=
  ⟨by decide, by decide, by decide,
    (utf8_split_safety 'я' 1 (by decide) (by decide) (by decide)).2⟩

end Matresha
